import Mathlib

/-!
Verification of the sampling, speculative-decoding, and chat-template
components of the mistral.rs inference server.

The definitions below are shallow embeddings of the Rust source:

* `src/mistralrs-core/src/sampler.rs` — the `Sampler` (argmax, top-k/top-p,
  repetition and presence penalties, logit bias, top-n logprobs);
* `src/mistralrs-core/src/pipeline/speculative.rs` — the rejection-sampling
  loop of `SpeculativePipeline::step` and its sequence-token bookkeeping;
* `src/mistralrs-core/src/pipeline/chat_template.rs` — `calculate_eos_tokens`.

Machine floats (`f32`, `f64`) are idealised as elements of a linear ordered
field, so statements can be read over `ℚ` (for executable checks) or `ℝ`
(when `exp`, `log` values matter).  The float functions `exp` and
`log(10.0)` are passed as explicit parameters and instantiated with
`Real.exp` and `Real.logb 10` in theorems over `ℝ`.
-/

namespace MistralRs

variable {α : Type} [LinearOrderedField α]

/-- Numerals built by repeated addition of one.  Used instead of `Nat.cast`
so that definitions evaluate by kernel reduction on `ℚ`. -/
def ofNatF [LinearOrderedField α] : ℕ → α
  | 0 => 0
  | n + 1 => ofNatF n + 1

theorem ofNatF_eq_natCast (n : ℕ) : (ofNatF n : α) = (n : α) := by
  induction n with
  | zero => simp [ofNatF]
  | succ k ih => simp [ofNatF, ih]

theorem ofNatF_nonneg (n : ℕ) : (0 : α) ≤ ofNatF n := by
  rw [ofNatF_eq_natCast]; exact Nat.cast_nonneg n

/-- Decidable equality for `Except`, used to evaluate embedded fallible
functions on concrete inputs. -/
instance {ε β : Type} [DecidableEq ε] [DecidableEq β] : DecidableEq (Except ε β) := fun x y =>
  match x, y with
  | .error a, .error b =>
    if h : a = b then .isTrue (congrArg Except.error h)
    else .isFalse (fun hh => h (by injection hh))
  | .ok a, .ok b =>
    if h : a = b then .isTrue (congrArg Except.ok h)
    else .isFalse (fun hh => h (by injection hh))
  | .error _, .ok _ => .isFalse (fun hh => Except.noConfusion hh)
  | .ok _, .error _ => .isFalse (fun hh => Except.noConfusion hh)

/-- Indexed map, with the starting index made explicit.  Models the
`.par_iter_mut().enumerate()` loops of the source. -/
def mapIdxFrom {β γ : Type} (f : ℕ → β → γ) : ℕ → List β → List γ
  | _, [] => []
  | i, v :: rest => f i v :: mapIdxFrom f (i + 1) rest

theorem mapIdxFrom_length {β γ : Type} (f : ℕ → β → γ) (i : ℕ) (l : List β) :
    (mapIdxFrom f i l).length = l.length := by
  induction l generalizing i with
  | nil => rfl
  | cons v rest ih => simp [mapIdxFrom, ih]

theorem mapIdxFrom_getElem? {β γ : Type} (f : ℕ → β → γ) (i j : ℕ) (l : List β) :
    (mapIdxFrom f i l)[j]? = l[j]?.map (f (i + j)) := by
  induction l generalizing i j with
  | nil => simp [mapIdxFrom]
  | cons v rest ih =>
    cases j with
    | zero => simp [mapIdxFrom]
    | succ k =>
      simp only [mapIdxFrom, List.getElem?_cons_succ, ih (i + 1) k]
      ring_nf

/-! ## Sampler data model (`sampler.rs`) -/

/-- Element of the top-n logprobs list (`TopLogprob` in `sampler.rs`). -/
structure TopLogprob (α : Type) where
  token : ℕ
  logprob : α
  bytes : String
  deriving DecidableEq

/-- Result of one sampling call (`Logprobs` in `sampler.rs`). -/
structure Logprobs (α : Type) where
  token : ℕ
  logprob : α
  bytes : String
  topLogprobs : Option (List (TopLogprob α))
  deriving DecidableEq

/-- Temperature normalisation performed by `Sampler::new`: a temperature that
is absent or below `1e-7` becomes `None` (argmax mode). -/
def effective_temperature (temperature : Option α) : Option α :=
  match temperature with
  | none => none
  | some v => if v < 1 / 10 ^ 7 then none else some v

/-- Mathematical softmax over the last dimension, the contract of the opaque
`candle_nn::ops::softmax_last_dim` kernel.  The float exponential is a
parameter. -/
def softmax (exp : α → α) (xs : List α) : List α :=
  let es := xs.map exp
  es.map (fun e => e / es.sum)

/-- Index of the maximal element, later elements winning ties, as Rust
`Iterator::max_by` does in `Sampler::sample_argmax`. -/
def argmaxAux : ℕ → ℕ → α → List α → ℕ
  | _, besti, _, [] => besti
  | i, besti, bestv, v :: rest =>
    if bestv ≤ v then argmaxAux (i + 1) i v rest else argmaxAux (i + 1) besti bestv rest

/-- Argmax of a list of weights (`Sampler::sample_argmax`, lines 155-160). -/
def argmaxIdx : List α → ℕ
  | [] => 0
  | v :: rest => argmaxAux 1 0 v rest

/-- Embedding of `Sampler::get_top_logprobs`: sort a copy of the given index
list by descending weight, take the logprobs of the first `topN` of the
sorted copy, but take the token ids (and decoded bytes) from the first `topN`
entries of the original unsorted index list. -/
def get_top_logprobs (log10 : α → α) (decode : ℕ → String) (topN : ℕ)
    (probs : List α) (argsortIndices : List ℕ) : List (TopLogprob α) :=
  let argsortIndicesSorted :=
    List.insertionSort (fun a b => probs.getD b 0 ≤ probs.getD a 0) argsortIndices
  let topNLogprobs := (argsortIndicesSorted.take topN).map (fun x => log10 (probs.getD x 0))
  let topNToks := argsortIndices.take topN
  let bytes := topNToks.map decode
  (bytes.zip (topNToks.zip topNLogprobs)).map
    (fun p => { token := p.2.1, logprob := p.2.2, bytes := p.1 })

/-- Embedding of `Sampler::sample_argmax`.  When the temperature is `None`
the `probs` argument holds the raw (biased, penalised) logits. -/
def sample_argmax (log10 : α → α) (decode : ℕ → String) (returnLogprobs : Bool)
    (topN : ℕ) (probs : List α) : Logprobs α :=
  let argsortIndices := List.range probs.length
  let nextToken := argmaxIdx probs
  { token := nextToken
    logprob := log10 (probs.getD nextToken 0)
    bytes := decode nextToken
    topLogprobs :=
      if returnLogprobs then some (get_top_logprobs log10 decode topN probs argsortIndices)
      else none }

/-- Index drawn by `rand::distributions::WeightedIndex::sample` given the
uniform draw `u ∈ [0, total)`: the first index whose cumulative weight
exceeds `u`. -/
def weightedAux : ℕ → α → α → List α → ℕ
  | i, _, _, [] => i
  | i, acc, u, w :: rest =>
    if u < acc + w then i else weightedAux (i + 1) (acc + w) u rest

/-- Weighted draw over a list of weights at uniform value `u`. -/
def weightedDraw (u : α) (probs : List α) : ℕ :=
  weightedAux 0 0 u probs

/-- Embedding of `Sampler::sample_multinomial`.  `WeightedIndex::new` fails
on a negative weight or when all weights are zero; `u` models the value drawn
from the seeded pseudo-random source. -/
def sample_multinomial (log10 : α → α) (decode : ℕ → String) (u : α)
    (returnLogprobs : Bool) (topN : ℕ) (probs : List α) (argsortIndices : List ℕ) :
    Except String (Logprobs α) :=
  if probs.any (fun w => w < 0) then .error "InvalidWeight"
  else if probs.sum ≤ 0 then .error "AllWeightsZero"
  else
    let nextToken := weightedDraw u probs
    .ok
      { token := nextToken
        logprob := log10 (probs.getD nextToken 0)
        bytes := decode nextToken
        topLogprobs :=
          if returnLogprobs then
            some (get_top_logprobs log10 decode topN probs argsortIndices)
          else none }

/-- Indices of `probs` sorted by descending weight (`sample_topkp`,
line 218; Rust `sort_by` is a stable sort, modelled by insertion sort). -/
def argsortDesc (probs : List α) : List ℕ :=
  List.insertionSort (fun i j => probs.getD j 0 ≤ probs.getD i 0) (List.range probs.length)

/-- Zero the entries of `probs` whose index occurs in `idxs`. -/
def zeroIndices (probs : List α) (idxs : List ℕ) : List α :=
  mapIdxFrom (fun j v => if j ∈ idxs then 0 else v) 0 probs

/-- Top-k clamp of `sample_topkp` (lines 220-227): when `top_k > 0`, zero the
weights of all indices beyond sorted position `top_k`. -/
def topkClamp (topK : ℤ) (sorted : List ℕ) (probs : List α) : List α :=
  if 0 < topK then zeroIndices probs (sorted.drop topK.toNat) else probs

/-- Top-p clamp of `sample_topkp` (lines 239-246): walk the sorted index
list; once the accumulated mass reaches `top_p`, zero every further index,
otherwise accumulate the mass of the index. -/
def toppClamp (topP : α) : List ℕ → α → List α → List α
  | [], _, probs => probs
  | i :: rest, cumsum, probs =>
    if topP ≤ cumsum then toppClamp topP rest cumsum (probs.set i 0)
    else toppClamp topP rest (cumsum + probs.getD i 0) probs

/-- Embedding of `Sampler::sample_topkp`. -/
def sample_topkp (log10 : α → α) (decode : ℕ → String) (u : α)
    (returnLogprobs : Bool) (topN : ℕ) (topK : ℤ) (topP : α) (probs : List α) :
    Except String (Logprobs α) :=
  let argsortIndices := argsortDesc probs
  let probs1 := topkClamp topK argsortIndices probs
  if topP ≤ 0 ∨ 1 ≤ topP then
    sample_multinomial log10 decode u returnLogprobs topN probs1 argsortIndices
  else
    sample_multinomial log10 decode u returnLogprobs topN
      (toppClamp topP argsortIndices 0 probs1) argsortIndices

/-- Embedding of `Sampler::apply_repeat_presence_penalty`: every token id `j`
has its logit decremented by `count_j * repeat_penalty` plus
`presence_penalty` when `count_j > 0`, `count_j` being the number of
occurrences of `j` in the penalty context. -/
def apply_repeat_presence_penalty (presencePenalty repeatPenalty : α)
    (context : List ℕ) (logits : List α) : List α :=
  mapIdxFrom
    (fun tokenId logit =>
      let count := (context.filter (fun x => x = tokenId)).length
      logit - ofNatF count * repeatPenalty -
        (if 0 < count then 1 else 0) * presencePenalty)
    0 logits

/-- Iteration of `Sampler::apply_logit_bias` over the bias entries: add each
bias to the weight at its token id; an out-of-range id is an error. -/
def applyBiasList : List (ℕ × α) → List α → Except String (List α)
  | [], probs => .ok probs
  | (id, biasV) :: rest, probs =>
    if id < probs.length then
      applyBiasList rest (probs.set id (probs.getD id 0 + biasV))
    else .error "Token ID out of range for probs"

/-- Embedding of `Sampler::apply_logit_bias` (the bias map is modelled as an
association list). -/
def apply_logit_bias : Option (List (ℕ × α)) → List α → Except String (List α)
  | none, probs => .ok probs
  | some entries, probs => applyBiasList entries probs

/-- Weight vector handed to the final sampling choice by `Sampler::sample`
(lines 283-304): an optional temperature-softmax stage, then the repetition
and presence penalties (requiring the penalty context), then the logit
bias. -/
def sample_probs (exp : α → α) (temperature : Option α)
    (repeatPenalty presencePenalty : Option α) (logitsBias : Option (List (ℕ × α)))
    (penaltyCtxt : Option (List ℕ)) (logits : List α) : Except String (List α) :=
  let logits1 :=
    match temperature with
    | none => logits
    | some t => softmax exp (logits.map (fun l => l / t))
  match repeatPenalty, presencePenalty with
  | none, none => apply_logit_bias logitsBias logits1
  | rp, pp =>
    match penaltyCtxt with
    | none => .error "Must specify penalty context."
    | some ctxt =>
      apply_logit_bias logitsBias
        (apply_repeat_presence_penalty (pp.getD 0) (rp.getD 0) ctxt logits1)

/-- Embedding of `Sampler::sample`: build the weight vector, then either
argmax (temperature `None`) or top-k/top-p weighted sampling. -/
def sample (exp log10 : α → α) (decode : ℕ → String) (u : α)
    (temperature : Option α) (topN : ℕ) (repeatPenalty presencePenalty : Option α)
    (logitsBias : Option (List (ℕ × α))) (topK : ℤ) (topP : α)
    (penaltyCtxt : Option (List ℕ)) (returnLogprobs : Bool) (logits : List α) :
    Except String (Logprobs α) :=
  match sample_probs exp temperature repeatPenalty presencePenalty logitsBias
      penaltyCtxt logits with
  | .error e => .error e
  | .ok probs =>
    match temperature with
    | none => .ok (sample_argmax log10 decode returnLogprobs topN probs)
    | some _ => sample_topkp log10 decode u returnLogprobs topN topK topP probs

/-! ## Speculative decoding (`pipeline/speculative.rs`) -/

/-- One sampled token together with the full weight vector it was drawn from
(`SpeculativeSample` in `pipeline/sampling.rs`; the `distribution` field
holds the raw logits returned by the forward pass). -/
structure SpeculativeSample (α : Type) where
  sample : Logprobs α
  distribution : List α
  deriving DecidableEq

/-- Rust `f32::clamp`. -/
def rustClamp (x lo hi : α) : α := min (max x lo) hi

/-- Acceptance probability computed by `SpeculativePipeline::step`
(lines 291-293): the ratio of the two base-10 log-probabilities, clamped to
`[0, 1]`.  Note that it is a ratio of logprobs, not of probabilities. -/
def acceptance_prob (targetLogprob draftLogprob : α) : α :=
  rustClamp (targetLogprob / draftLogprob) 0 1

/-- Corrected weight vector used on rejection (line 300):
`relu(target_distribution - draft_distribution)`, taken entrywise on the raw
logits. -/
def correctedDistribution (target draft : List α) : List α :=
  (target.zip draft).map (fun p => max 0 (p.1 - p.2))

/-- Rejection loop of `SpeculativePipeline::step` (lines 283-326) over the
zipped target/draft samples.  `coin k` is the uniform draw consumed by the
`k`-th call to `rng.gen_bool` (accept when `coin k <` the acceptance
probability), and `resample` stands for the `sample_sequence` call applied
to the corrected distribution.  The loop stops after a resample and after a
token mismatch. -/
def specAcceptLoop (resample : List α → Logprobs α) (coin : ℕ → α) :
    ℕ → List (SpeculativeSample α × SpeculativeSample α) → List (Logprobs α)
  | _, [] => []
  | k, (targetSample, draftSample) :: rest =>
    if draftSample.sample.token = targetSample.sample.token then
      if draftSample.sample.logprob ≤ targetSample.sample.logprob then
        targetSample.sample :: specAcceptLoop resample coin k rest
      else
        if coin k < acceptance_prob targetSample.sample.logprob draftSample.sample.logprob then
          targetSample.sample :: specAcceptLoop resample coin (k + 1) rest
        else
          [resample (correctedDistribution targetSample.distribution draftSample.distribution)]
    else
      [targetSample.sample]

/-! ## Sequence token bookkeeping

Modelled from the spec: the `Sequence` type lives in
`src/mistralrs-core/src/sequence.rs`, which is not part of the excerpted
sources; only its callers are.  Section 4.7 of the spec describes the
operations used by the speculative driver: `add_token` appends to the
canonical committed token list, `add_tmp_token` / `remove_tmp_token` append
and drop trailing temporary tokens, and `set_prefill_tokens` /
`reset_prefill_tokens` set and clear a separate prefill list without
touching the committed list. -/

/-- Modelled from the spec: the token-list state of a `Sequence` — the
committed token list (with trailing tmp tokens counted by `tmp`) and the
prefill token list. -/
structure SeqToks where
  toks : List ℕ
  tmp : ℕ
  prefill : List ℕ
  deriving DecidableEq

/-- Modelled from the spec: `Sequence::add_token` appends a committed token. -/
def addToken (s : SeqToks) (t : ℕ) : SeqToks :=
  { s with toks := s.toks ++ [t] }

/-- Modelled from the spec: `Sequence::add_tmp_tok` appends a temporary
token. -/
def addTmpTok (s : SeqToks) (t : ℕ) : SeqToks :=
  { s with toks := s.toks ++ [t], tmp := s.tmp + 1 }

/-- Modelled from the spec: `Sequence::remove_tmp_tok n` drops the last `n`
(temporary) tokens. -/
def removeTmpTok (s : SeqToks) (n : ℕ) : SeqToks :=
  { s with toks := s.toks.take (s.toks.length - n), tmp := s.tmp - n }

/-- Modelled from the spec: `Sequence::remove_last_token` removes and returns
the last committed token. -/
def removeLastToken (s : SeqToks) : Option (ℕ × SeqToks) :=
  match s.toks.getLast? with
  | none => none
  | some t => some (t, { s with toks := s.toks.dropLast })

/-- Modelled from the spec: `Sequence::set_prefill_toks`. -/
def setPrefillToks (s : SeqToks) (p : List ℕ) : SeqToks :=
  { s with prefill := p }

/-- Modelled from the spec: `Sequence::reset_prefill_toks`. -/
def resetPrefillToks (s : SeqToks) : SeqToks :=
  { s with prefill := [] }

/-- Token-list effect of `SpeculativePipeline::step` on the sequence, in
source order: add the `γ` draft proposals as tmp tokens (line 188), remove
all of them (line 194), set the prefill tokens (line 212), remove the last
committed token for the verify pass (line 213), and after the target forward
reset the prefill tokens, re-add the removed token (lines 264-265), and
append each accepted token (lines 329-340). -/
def speculativeStepToks (seq : SeqToks) (draftToks : List ℕ)
    (prefillToks : List ℕ) (accepted : List ℕ) : Option SeqToks :=
  let s1 := draftToks.foldl addTmpTok seq
  let s2 := removeTmpTok s1 draftToks.length
  let s3 := setPrefillToks s2 prefillToks
  match removeLastToken s3 with
  | none => none
  | some (l, s4) =>
    let s5 := resetPrefillToks s4
    let s6 := addToken s5 l
    some (accepted.foldl addToken s6)

/-! ## EOS-token resolution (`pipeline/chat_template.rs`) -/

/-- The fixed allow-list of alternate end markers
(`SUPPORTED_ALTERNATE_EOS`, lines 13-16). -/
def SUPPORTED_ALTERNATE_EOS : List String := ["<|im_end|>", "<end_of_turn>"]

/-- Tokenizer interface used by `calculate_eos_tokens`: the vocabulary as an
association list and the single-id decode map. -/
structure TokenizerM where
  vocab : List (String × ℕ)
  decode : ℕ → Option String

/-- Vocabulary lookup (`tokenizer.get_vocab(true).get(..)`). -/
def vocabGet (vocab : List (String × ℕ)) (s : String) : Option ℕ :=
  (vocab.find? (fun p => p.1 = s)).map (fun p => p.2)

/-- The template-declared special tokens of a `ChatTemplate` that
`calculate_eos_tokens` reads (`eos_tok()` and `bos_tok()` both collapse the
two `BeginEndUnkTok` cases to a plain string). -/
structure ChatTemplateM where
  eosToken : Option String
  bosToken : Option String

/-- Generation-config token ids (`GenerationConfig`; the untagged
`Either<u32, Vec<u32>>` is collapsed to a list). -/
structure GenerationConfigM where
  bosTokenId : List ℕ
  eosTokenId : List ℕ

/-- Decode each id and push the result onto `acc` unless already present
(`calculate_eos_tokens`, lines 116-123 and 129-136); a failing decode is a
fatal error. -/
def appendDecoded (decode : ℕ → Option String) : List String → List ℕ →
    Except String (List String)
  | acc, [] => .ok acc
  | acc, id :: rest =>
    match decode id with
    | none => .error ("Unable to decode id " ++ toString id)
    | some s => appendDecoded decode (if s ∈ acc then acc else acc ++ [s]) rest

/-- Look every resolved string up in the vocabulary (`calculate_eos_tokens`,
lines 155-164); a missing lookup is a fatal error. -/
def lookupEosIds (vocab : List (String × ℕ)) : List String → Except String (List ℕ)
  | [] => .ok []
  | s :: rest =>
    match vocabGet vocab s with
    | none => .error ("Unable to extract EOS token " ++ s)
    | some id =>
      match lookupEosIds vocab rest with
      | .error e => .error e
      | .ok ids => .ok (id :: ids)

/-- Embedding of `calculate_eos_tokens` (lines 94-166): start from the
template-declared eos token, add each allow-listed alternate end marker that
is present in the vocabulary, add the decoded generation-config eos ids
(deduplicated), decode the generation-config bos ids for the log line (their
failures are still fatal), and finally look everything up in the
vocabulary. -/
def calculate_eos_tokens (ct : ChatTemplateM) (genConf : Option GenerationConfigM)
    (tok : TokenizerM) : Except String (List ℕ) :=
  let eosTokIds0 :=
    (match ct.eosToken with | some s => [s] | none => []) ++
      SUPPORTED_ALTERNATE_EOS.filter (fun a => (vocabGet tok.vocab a).isSome)
  let bosTokIds0 := match ct.bosToken with | some s => [s] | none => []
  match genConf with
  | none => lookupEosIds tok.vocab eosTokIds0
  | some gc =>
    match appendDecoded tok.decode eosTokIds0 gc.eosTokenId with
    | .error e => .error e
    | .ok eosTokIds =>
      match appendDecoded tok.decode bosTokIds0 gc.bosTokenId with
      | .error e => .error e
      | .ok _ => lookupEosIds tok.vocab eosTokIds

/-- Definition following the words of the spec, for comparison with
`calculate_eos_tokens`: the union of (a) the template-declared eos token,
(b) each allow-listed alternate end marker present in the vocabulary, and
(c) each generation-config eos token id decoded through the tokenizer. -/
def eosResolvedStrings (ct : ChatTemplateM) (gc : GenerationConfigM)
    (tok : TokenizerM) : List String :=
  (match ct.eosToken with | some s => [s] | none => []) ++
    SUPPORTED_ALTERNATE_EOS.filter (fun a => (vocabGet tok.vocab a).isSome) ++
    gc.eosTokenId.filterMap tok.decode

/-- Concrete sampling result used by the speculative-loop example inputs. -/
def exLogprobs (t : ℕ) (lp : ℚ) : Logprobs ℚ :=
  { token := t, logprob := lp, bytes := "", topLogprobs := none }

/-- Concrete speculative sample (empty distribution) for example inputs. -/
def exSpecSample (t : ℕ) (lp : ℚ) : SpeculativeSample ℚ :=
  { sample := exLogprobs t lp, distribution := [] }

/-- List of agreeing target/draft pairs: the same token on both sides, with
equal logprobs, so the loop accepts every pair. -/
def exAgreePairs (ts : List ℕ) : List (SpeculativeSample ℚ × SpeculativeSample ℚ) :=
  ts.map (fun t => (exSpecSample t (-1), exSpecSample t (-1)))

/-- Constant resample function for example inputs. -/
def exResample : List ℚ → Logprobs ℚ := fun _ => exLogprobs 99 0

/-- Constant coin stream for example inputs. -/
def exCoin : ℕ → ℚ := fun _ => 0

/-- Probability mass accumulated by the top-p walk before it reaches
position `n` of the sorted index list `s`: the sum of the weights of the
first `n` sorted indices. -/
def massBefore (probs : List α) (s : List ℕ) (n : ℕ) : α :=
  ((s.take n).map (fun i => probs.getD i 0)).sum

/-- Definition following the words of the spec, for comparison with
`sample_probs` (claim C3): apply the repetition and presence penalties to
the raw logits first, and only then the temperature division and the
softmax. -/
def penaltiesBeforeSoftmax (exp : α → α) (t : α)
    (presencePenalty repeatPenalty : α) (context : List ℕ) (logits : List α) :
    List α :=
  softmax exp
    ((apply_repeat_presence_penalty presencePenalty repeatPenalty context logits).map
      (fun l => l / t))

/-! ## Helper lemmas -/

theorem mapIdxFrom_getD {β γ : Type} (f : ℕ → β → γ) (l : List β) (j : ℕ)
    (hj : j < l.length) (d : γ) (d' : β) :
    (mapIdxFrom f 0 l).getD j d = f j (l.getD j d') := by
  have hsome : l[j]? = some l[j] := List.getElem?_eq_getElem hj
  rw [List.getD_eq_getElem?_getD, mapIdxFrom_getElem?, hsome, List.getD_eq_getElem?_getD, hsome]
  simp

theorem foldl_addTmpTok (seq : SeqToks) (d : List ℕ) :
    d.foldl addTmpTok seq = ⟨seq.toks ++ d, seq.tmp + d.length, seq.prefill⟩ := by
  induction d generalizing seq with
  | nil => cases seq; simp
  | cons t rest ih =>
    simp only [List.foldl_cons, ih, addTmpTok, List.append_assoc, List.singleton_append,
      List.length_cons, SeqToks.mk.injEq]
    exact ⟨trivial, by omega, trivial⟩

theorem foldl_addToken (seq : SeqToks) (a : List ℕ) :
    a.foldl addToken seq = ⟨seq.toks ++ a, seq.tmp, seq.prefill⟩ := by
  induction a generalizing seq with
  | nil => cases seq; simp
  | cons t rest ih =>
    simp [List.foldl_cons, ih, addToken, List.append_assoc]

/-! ## Claim C8 — penalty context requirement and penalty formula -/

/-- C8: if `repeat_penalty` or `presence_penalty` is set and no penalty
context is provided, `sample` fails with the missing-context error; with a
context provided, every token id `j` has its logit decremented by
`count_j * repeat_penalty` plus `presence_penalty` when `count_j > 0`,
where `count_j` counts the occurrences of `j` in the context; and in the
scenario with temperature `None`, logits `[2, 2]`, context `[0]`,
presence penalty `1/2` and repeat penalty `0`, the effective logits are
`[3/2, 2]` and token 1 is returned. -/
theorem penalty_requires_context_and_formula :
    (∀ (temperature : Option ℚ) (rp pp : Option ℚ) (bias : Option (List (ℕ × ℚ)))
        (logits : List ℚ), rp.isSome ∨ pp.isSome →
        sample_probs id temperature rp pp bias none logits =
          .error "Must specify penalty context.")
    ∧ (∀ (pp rp : ℚ) (ctxt : List ℕ) (logits : List ℚ) (j : ℕ), j < logits.length →
        (apply_repeat_presence_penalty pp rp ctxt logits).getD j 0 =
          logits.getD j 0 - ofNatF ((ctxt.filter (fun x => x = j)).length) * rp -
            (if 0 < (ctxt.filter (fun x => x = j)).length then 1 else 0) * pp)
    ∧ (∀ (log10 : ℚ → ℚ) (decode : ℕ → String),
        apply_repeat_presence_penalty (1/2 : ℚ) 0 [0] [2, 2] = [3/2, 2]
        ∧ sample id log10 decode 0 none 0 (some 0) (some (1/2)) none 0 0 (some [0]) false
            [2, 2] = .ok ⟨1, log10 2, decode 1, none⟩) := by
  refine ⟨?_, ?_, ?_⟩
  · intro temperature rp pp bias logits h
    cases rp <;> cases pp <;> simp_all [sample_probs]
  · intro pp rp ctxt logits j hj
    rw [apply_repeat_presence_penalty, mapIdxFrom_getD _ _ _ hj _ 0]
  · intro log10 decode
    have hpen : apply_repeat_presence_penalty (1/2 : ℚ) 0 [0] [2, 2] = [3/2, 2] := by
      norm_num [apply_repeat_presence_penalty, mapIdxFrom, ofNatF]
    have h1 : sample_probs (id : ℚ → ℚ) none (some 0) (some (1/2)) none (some [0]) [2, 2]
        = .ok [3/2, 2] := by
      simp only [sample_probs, apply_logit_bias, Option.getD_some, hpen]
    refine ⟨hpen, ?_⟩
    unfold sample
    rw [h1]
    have h2 : argmaxIdx [(3 : ℚ)/2, 2] = 1 := by
      norm_num [argmaxIdx, argmaxAux]
    simp [sample_argmax, h2]

/-- Witness for C8 at concrete inputs. -/
theorem penalty_requires_context_and_formula_witness :
    sample_probs id none (some (1 : ℚ)) none none none [(1 : ℚ)] =
      .error "Must specify penalty context."
    ∧ (apply_repeat_presence_penalty (1/2 : ℚ) 0 [0] [2, 2]).getD 1 0 =
        ([2, 2] : List ℚ).getD 1 0 -
          ofNatF ((([0] : List ℕ).filter (fun x => x = 1)).length) * 0 -
          (if 0 < (([0] : List ℕ).filter (fun x => x = 1)).length then 1 else 0) * (1/2) :=
  ⟨penalty_requires_context_and_formula.1 none (some 1) none none [1] (Or.inl rfl),
   penalty_requires_context_and_formula.2.1 (1/2) 0 [0] [2, 2] 1 (by decide)⟩

/-! ## Claim C7 — top-n logprobs pairing -/

/-- C7 (code bug): on the argmax path with logits `[1, 5, 3, 2]` and
`top_n = 1`, `get_top_logprobs` pairs token id 0 (the first entry of the
unsorted index list) with the logprob of token 1 (the highest-probability
token) and the decoded bytes of token 0: the `token`, `logprob` and `bytes`
fields of the entry do not refer to the same token, and the entry is not
the highest-probability token id (which is 1, as the second conjunct
records). -/
theorem top_logprobs_mispaired (log10 : ℚ → ℚ) (decode : ℕ → String) :
    sample_argmax log10 decode true 1 [1, 5, 3, 2] =
      ⟨1, log10 5, decode 1, some [⟨0, log10 5, decode 0⟩]⟩
    ∧ argmaxIdx [(1 : ℚ), 5, 3, 2] = 1 ∧ (0 : ℕ) ≠ 1 :=
  ⟨rfl, by decide, by decide⟩

/-! ## Claim C2 — number of committed tokens per target call -/

/-- C2 counterexample: a speculative step with `γ = 3` draft tokens in which
every draft token is accepted commits exactly 3 tokens, not 4: the rejection
loop of `SpeculativePipeline::step` never adds a bonus sample. -/
theorem speculative_gamma_commit_counterexample :
    (specAcceptLoop exResample exCoin 0 (exAgreePairs [7, 8, 9])).length = 3
    ∧ (3 : ℕ) ≠ 4 :=
  ⟨by decide, by decide⟩

/-- C2 amended: the rejection loop commits at most one token per zipped
draft/target pair — never `γ + 1` — and when every pair agrees (same token,
draft logprob at most target logprob) it commits exactly the `γ` target
samples. -/
theorem speculative_commits_at_most_gamma (resample : List ℚ → Logprobs ℚ)
    (coin : ℕ → ℚ) (k : ℕ)
    (pairs : List (SpeculativeSample ℚ × SpeculativeSample ℚ)) :
    (specAcceptLoop resample coin k pairs).length ≤ pairs.length
    ∧ ((∀ pr ∈ pairs, pr.2.sample.token = pr.1.sample.token ∧
          pr.2.sample.logprob ≤ pr.1.sample.logprob) →
        specAcceptLoop resample coin k pairs = pairs.map (fun pr => pr.1.sample)) := by
  constructor
  · induction pairs generalizing k with
    | nil => simp [specAcceptLoop]
    | cons pr rest ih =>
      obtain ⟨t, d⟩ := pr
      by_cases h1 : d.sample.token = t.sample.token
      · by_cases h2 : d.sample.logprob ≤ t.sample.logprob
        · simpa [specAcceptLoop, h1, h2] using Nat.succ_le_succ (ih k)
        · by_cases h3 :
            coin k < acceptance_prob t.sample.logprob d.sample.logprob
          · simpa [specAcceptLoop, h1, h2, h3] using Nat.succ_le_succ (ih (k + 1))
          · simp only [specAcceptLoop, if_pos h1, if_neg h2, if_neg h3]
            simp only [List.length_cons, List.length_singleton]
            exact Nat.succ_le_succ (Nat.zero_le rest.length)
      · simp only [specAcceptLoop, if_neg h1]
        simp only [List.length_cons, List.length_singleton]
        exact Nat.succ_le_succ (Nat.zero_le rest.length)
  · induction pairs generalizing k with
    | nil => intro _; simp [specAcceptLoop]
    | cons pr rest ih =>
      intro hall
      obtain ⟨t, d⟩ := pr
      have ht := hall (t, d) (List.mem_cons_self _ _)
      simp only [specAcceptLoop, if_pos ht.1, if_pos ht.2, List.map_cons]
      exact congrArg _ (ih k (fun pr hpr => hall pr (List.mem_cons_of_mem _ hpr)))

/-- Witness for the amended C2 at a concrete all-accepted input. -/
theorem speculative_commits_at_most_gamma_witness :
    (specAcceptLoop exResample exCoin 0 (exAgreePairs [1, 2])).length ≤
      (exAgreePairs [1, 2]).length
    ∧ specAcceptLoop exResample exCoin 0 (exAgreePairs [1, 2]) =
        (exAgreePairs [1, 2]).map (fun pr => pr.1.sample) :=
  ⟨(speculative_commits_at_most_gamma exResample exCoin 0 (exAgreePairs [1, 2])).1,
   (speculative_commits_at_most_gamma exResample exCoin 0 (exAgreePairs [1, 2])).2
     (by decide)⟩

/-! ## Claim C9 — frame effect of a speculative step on the token list -/

/-- C9: a speculative step never disturbs the canonical committed token
list: the draft proposals added as tmp tokens are all removed again
(`removeTmpTok` after the `addTmpTok` fold restores the sequence exactly),
and the whole step maps a sequence with committed list `toks` to the
sequence with committed list `toks ++ accepted`, cleared prefill list, and
unchanged tmp count — the token removed for the verify pass is re-added
unchanged.  Modelled from the spec for the `Sequence` operations
(section 4.7); the call order is that of `SpeculativePipeline::step`. -/
theorem speculative_step_toks_frame (seq : SeqToks)
    (draftToks prefillToks accepted : List ℕ) (h : seq.toks ≠ []) :
    removeTmpTok (draftToks.foldl addTmpTok seq) draftToks.length = seq
    ∧ speculativeStepToks seq draftToks prefillToks accepted =
        some ⟨seq.toks ++ accepted, seq.tmp, []⟩ := by
  have hround : removeTmpTok (draftToks.foldl addTmpTok seq) draftToks.length = seq := by
    rw [foldl_addTmpTok]
    cases seq with
    | mk toks tmp prefill =>
      simp [removeTmpTok, Nat.add_sub_cancel, List.take_left]
  refine ⟨hround, ?_⟩
  simp only [speculativeStepToks, hround]
  have hlast : (setPrefillToks seq prefillToks).toks.getLast? =
      some (seq.toks.getLast h) := by
    simp [setPrefillToks, List.getLast?_eq_getLast _ h]
  simp only [removeLastToken, hlast]
  simp only [setPrefillToks, resetPrefillToks, addToken, foldl_addToken]
  simp [List.dropLast_append_getLast h]

/-- Witness for C9 at a concrete sequence. -/
theorem speculative_step_toks_frame_witness :
    removeTmpTok (([1, 2] : List ℕ).foldl addTmpTok ⟨[5], 0, []⟩) 2 = ⟨[5], 0, []⟩
    ∧ speculativeStepToks ⟨[5], 0, []⟩ [1, 2] [9] [7, 8] = some ⟨[5, 7, 8], 0, []⟩ :=
  speculative_step_toks_frame ⟨[5], 0, []⟩ [1, 2] [9] [7, 8] (by decide)

/-! ## Claim C1 — rejection-sampling acceptance rule -/

/-- C1 (code bug): at the specification example — draft probability
`q(t) = 9/10`, target probability `p(t) = 1/5`, same token sampled by both
models — the acceptance probability computed by `SpeculativePipeline::step`
is the clamped ratio of the two base-10 logprobs, `clamp(log p / log q)`,
which equals 1, not the claimed `p(t)/q(t) = 2/9`: both logprobs are
negative with `log p ≤ log q`, so the ratio is at least 1 and the rejection
branch (and hence the `max(0, p − q)` resample) can never fire under real
semantics. -/
theorem acceptance_prob_is_logprob_ratio :
    acceptance_prob (Real.logb 10 (1/5)) (Real.logb 10 (9/10)) = 1
    ∧ (2/9 : ℝ) ≠ 1 := by
  have hb : Real.logb 10 (9/10) < 0 :=
    Real.logb_neg (by norm_num) (by norm_num) (by norm_num)
  have hab : Real.logb 10 (1/5) ≤ Real.logb 10 (9/10) :=
    Real.logb_le_logb_of_le (by norm_num) (by norm_num) (by norm_num)
  have hr : 1 ≤ Real.logb 10 (1/5) / Real.logb 10 (9/10) :=
    (one_le_div_of_neg hb).mpr hab
  constructor
  · unfold acceptance_prob rustClamp
    rw [max_eq_left (le_trans zero_le_one hr), min_eq_right hr]
  · norm_num

/-! ## Claim C4 — argmax scenario -/

/-- C4 counterexample: with temperature `None`, logits `[1, 5, 3, 2]`, no
penalties and no bias, `sample` does return token 1 (the argmax), but the
returned logprob is `log10` of the raw logit `5.0`, which differs from the
claimed `log10 (softmax logits)[1]`: the former is positive and the latter
negative, because no softmax is applied on the argmax path. -/
theorem argmax_scenario_counterexample :
    sample (fun x => x) (fun x => Real.logb 10 x) (fun _ => "") 0 none 0 none none
        none 0 0 none false [1, 5, 3, 2] = .ok ⟨1, Real.logb 10 5, "", none⟩
    ∧ Real.logb 10 5 ≠ Real.logb 10 ((softmax Real.exp [1, 5, 3, 2]).getD 1 0) := by
  constructor
  · have h1 : sample_probs (fun x : ℝ => x) none none none none none [1, 5, 3, 2] =
        .ok [1, 5, 3, 2] := rfl
    unfold sample
    rw [h1]
    have h2 : argmaxIdx [(1 : ℝ), 5, 3, 2] = 1 := by
      norm_num [argmaxIdx, argmaxAux]
    simp [sample_argmax, h2]
  · have h5 : (0 : ℝ) < Real.logb 10 5 := Real.logb_pos (by norm_num) (by norm_num)
    have hs : (softmax Real.exp [1, 5, 3, 2]).getD 1 0 =
        Real.exp 5 / (Real.exp 1 + (Real.exp 5 + (Real.exp 3 + (Real.exp 2 + 0)))) := by
      simp [softmax]
    have hpos : (0 : ℝ) <
        Real.exp 1 + (Real.exp 5 + (Real.exp 3 + (Real.exp 2 + 0))) := by positivity
    have hlt : Real.exp 5 / (Real.exp 1 + (Real.exp 5 + (Real.exp 3 + (Real.exp 2 + 0)))) < 1 := by
      rw [div_lt_one hpos]
      have e1 := Real.exp_pos 1
      have e3 := Real.exp_pos 3
      have e2 := Real.exp_pos 2
      linarith
    have hneg : Real.logb 10 ((softmax Real.exp [1, 5, 3, 2]).getD 1 0) < 0 := by
      rw [hs]
      exact Real.logb_neg (by norm_num) (by positivity) hlt
    exact ne_of_gt (lt_trans hneg h5)

/-- C4 amended: `sample` at temperature `None` on logits `[1, 5, 3, 2]`
returns token 1 (the argmax) and logprob `log10 5 ≈ 0.699`, the base-10
logarithm of the raw logit at the argmax (a positive number, not the
claimed `log10` of a softmax value). -/
theorem argmax_scenario_amended :
    sample (fun x => x) (fun x => Real.logb 10 x) (fun _ => "") 0 none 0 none none
        none 0 0 none false [1, 5, 3, 2] = .ok ⟨1, Real.logb 10 5, "", none⟩
    ∧ 0 < Real.logb 10 5 := by
  constructor
  · have h1 : sample_probs (fun x : ℝ => x) none none none none none [1, 5, 3, 2] =
        .ok [1, 5, 3, 2] := rfl
    unfold sample
    rw [h1]
    have h2 : argmaxIdx [(1 : ℝ), 5, 3, 2] = 1 := by
      norm_num [argmaxIdx, argmaxAux]
    simp [sample_argmax, h2]
  · exact Real.logb_pos (by norm_num) (by norm_num)

/-! ## Claim C3 — order of penalties and softmax -/

/-- C3 counterexample: with temperature 1, repeat penalty 1, context `[0]`
and logits `[0, 0]`, the weight vector built by `sample` is
`[-1/2, 1/2]` — the penalty was subtracted from the softmax output — which
differs from the vector obtained by applying the penalty to the logits
before the softmax (whose entries are all positive). -/
theorem penalty_order_counterexample :
    sample_probs Real.exp (some 1) (some 1) none none (some [0]) [0, 0] =
      .ok [-(1/2 : ℝ), 1/2]
    ∧ sample_probs Real.exp (some 1) (some 1) none none (some [0]) [0, 0] ≠
        .ok (penaltiesBeforeSoftmax Real.exp 1 0 1 [0] [0, 0]) := by
  have h1 : sample_probs Real.exp (some 1) (some 1) none none (some [0]) [0, 0] =
      .ok [-(1/2 : ℝ), 1/2] := by
    norm_num [sample_probs, softmax, apply_repeat_presence_penalty, mapIdxFrom, ofNatF,
      apply_logit_bias, Real.exp_zero]
  refine ⟨h1, ?_⟩
  have h2 : penaltiesBeforeSoftmax Real.exp 1 0 1 [0] [0, 0] =
      [Real.exp (-1) / (Real.exp (-1) + (1 + 0)), 1 / (Real.exp (-1) + (1 + 0))] := by
    norm_num [penaltiesBeforeSoftmax, softmax, apply_repeat_presence_penalty, mapIdxFrom,
      ofNatF, Real.exp_zero]
  rw [h1, h2]
  intro h
  have hlist : [-(1/2 : ℝ), 1/2] =
      [Real.exp (-1) / (Real.exp (-1) + (1 + 0)), 1 / (Real.exp (-1) + (1 + 0))] := by
    injection h
  have hhead : -(1/2 : ℝ) = Real.exp (-1) / (Real.exp (-1) + (1 + 0)) := by
    injection hlist
  have hpos : (0 : ℝ) < Real.exp (-1) / (Real.exp (-1) + (1 + 0)) := by positivity
  linarith

/-- C3 amended: when a temperature is set, `sample` applies the repetition
and presence penalties to the output of the softmax (probability space),
after the softmax over the last dimension is taken; only when argmax is
used (temperature `None`) are they applied directly in logit space.  The
logit bias is added after the penalties in both branches. -/
theorem penalties_applied_after_softmax (exp : α → α) (t : α) (rp pp : Option α)
    (bias : Option (List (ℕ × α))) (ctxt : List ℕ) (logits : List α)
    (h : rp.isSome ∨ pp.isSome) :
    sample_probs exp (some t) rp pp bias (some ctxt) logits =
      apply_logit_bias bias
        (apply_repeat_presence_penalty (pp.getD 0) (rp.getD 0) ctxt
          (softmax exp (logits.map (fun l => l / t))))
    ∧ sample_probs exp none rp pp bias (some ctxt) logits =
      apply_logit_bias bias
        (apply_repeat_presence_penalty (pp.getD 0) (rp.getD 0) ctxt logits) := by
  cases rp <;> cases pp <;> simp_all [sample_probs]

/-- Witness for the amended C3 at concrete rational inputs. -/
theorem penalties_applied_after_softmax_witness :
    sample_probs (id : ℚ → ℚ) (some 1) (some 1) none none (some [0]) [0] =
      apply_logit_bias none
        (apply_repeat_presence_penalty ((none : Option ℚ).getD 0) ((some (1 : ℚ)).getD 0)
          [0] (softmax id (List.map (fun l => l / 1) [0])))
    ∧ sample_probs (id : ℚ → ℚ) none (some 1) none none (some [0]) [0] =
      apply_logit_bias none
        (apply_repeat_presence_penalty ((none : Option ℚ).getD 0) ((some (1 : ℚ)).getD 0)
          [0] [0]) :=
  penalties_applied_after_softmax id 1 (some 1) none none [0] [0] (Or.inl rfl)

/-! ## Claim C6 — top-p cutoff scenario -/

theorem softmax_log_half_three_tenths_fifth :
    softmax Real.exp
        (List.map (fun l => l / 1) [Real.log (1/2), Real.log (3/10), Real.log (1/5)]) =
      [(1/2 : ℝ), 3/10, 1/5] := by
  have e1 : Real.exp (Real.log (1/2)) = 1/2 := Real.exp_log (by norm_num)
  have e2 : Real.exp (Real.log (3/10)) = 3/10 := Real.exp_log (by norm_num)
  have e3 : Real.exp (Real.log (1/5)) = 1/5 := Real.exp_log (by norm_num)
  simp only [softmax, List.map_cons, List.map_nil, div_one, e1, e2, e3]
  norm_num

theorem argsortDesc_half_three_tenths_fifth :
    argsortDesc [(1/2 : ℝ), 3/10, 1/5] = [0, 1, 2] := by
  have hr : List.range 3 = [0, 1, 2] := rfl
  simp only [argsortDesc, List.length_cons, List.length_nil, hr]
  norm_num [List.insertionSort, List.orderedInsert, List.getD]

theorem toppClamp_scenario :
    toppClamp (3/5 : ℝ) [0, 1, 2] 0 [1/2, 3/10, 1/5] = [1/2, 3/10, 0] := by
  norm_num [toppClamp, List.getD, List.set]

/-- C6 counterexample: with temperature 1, logits
`[ln(1/2), ln(3/10), ln(1/5)]`, `top_k = 0` and `top_p = 3/5`, token 1
remains in the sampled support after the top-p cutoff (its weight `3/10`
is not zeroed, because the cumulative mass `1/2` before it is still below
`3/5`), and the multinomial draw at `u = 3/5` actually returns token 1 —
so `sample` does not always return token 0. -/
theorem topp_scenario_counterexample :
    sample Real.exp (fun x => Real.logb 10 x) (fun _ => "") (3/5) (some 1) 0 none none
        none 0 (3/5) none false [Real.log (1/2), Real.log (3/10), Real.log (1/5)] =
      .ok ⟨1, Real.logb 10 (3/10), "", none⟩
    ∧ (1 : ℕ) ≠ 0 := by
  refine ⟨?_, by decide⟩
  have h0 : sample_probs Real.exp (some 1) none none none none
      [Real.log (1/2), Real.log (3/10), Real.log (1/5)] = .ok [(1/2 : ℝ), 3/10, 1/5] := by
    simp only [sample_probs, apply_logit_bias, softmax_log_half_three_tenths_fifth]
  simp only [sample, h0, sample_topkp]
  rw [argsortDesc_half_three_tenths_fifth]
  have hk : topkClamp 0 [0, 1, 2] [(1/2 : ℝ), 3/10, 1/5] = [(1/2 : ℝ), 3/10, 1/5] := by
    norm_num [topkClamp]
  rw [hk]
  have hcond : ¬((3/5 : ℝ) ≤ 0 ∨ (1 : ℝ) ≤ 3/5) := by norm_num
  rw [if_neg hcond, toppClamp_scenario]
  unfold sample_multinomial
  have hany : ([(1/2 : ℝ), 3/10, 0].any fun w => decide (w < 0)) = false := by
    norm_num
  rw [hany]
  have hsum : ¬(([(1/2 : ℝ), 3/10, 0].sum) ≤ 0) := by norm_num
  simp only [Bool.false_eq_true, if_false, if_neg hsum]
  have hw : weightedDraw (3/5 : ℝ) [1/2, 3/10, 0] = 1 := by
    norm_num [weightedDraw, weightedAux]
  rw [hw]
  have hg : ([(1/2 : ℝ), 3/10, 0]).getD 1 0 = 3/10 := by
    norm_num [List.getD]
  rw [hg]

/-- C6 amended: after the top-p cutoff both token 0 and token 1 remain in
the support (the masked weight vector is `[1/2, 3/10, 0]` — only token 2 is
zeroed), so the sampled token depends on the draw: at `u = 1/4` the sample
returns token 0, while a draw above `1/2` returns token 1. -/
theorem topp_scenario_amended :
    toppClamp (3/5 : ℝ) (argsortDesc [(1/2 : ℝ), 3/10, 1/5]) 0 [(1/2 : ℝ), 3/10, 1/5] =
      [1/2, 3/10, 0]
    ∧ sample Real.exp (fun x => Real.logb 10 x) (fun _ => "") (1/4) (some 1) 0 none none
        none 0 (3/5) none false [Real.log (1/2), Real.log (3/10), Real.log (1/5)] =
      .ok ⟨0, Real.logb 10 (1/2), "", none⟩ := by
  constructor
  · rw [argsortDesc_half_three_tenths_fifth]
    exact toppClamp_scenario
  · have h0 : sample_probs Real.exp (some 1) none none none none
        [Real.log (1/2), Real.log (3/10), Real.log (1/5)] =
        .ok [(1/2 : ℝ), 3/10, 1/5] := by
      simp only [sample_probs, apply_logit_bias, softmax_log_half_three_tenths_fifth]
    simp only [sample, h0, sample_topkp]
    rw [argsortDesc_half_three_tenths_fifth]
    have hk : topkClamp 0 [0, 1, 2] [(1/2 : ℝ), 3/10, 1/5] = [(1/2 : ℝ), 3/10, 1/5] := by
      norm_num [topkClamp]
    rw [hk]
    have hcond : ¬((3/5 : ℝ) ≤ 0 ∨ (1 : ℝ) ≤ 3/5) := by norm_num
    rw [if_neg hcond, toppClamp_scenario]
    unfold sample_multinomial
    have hany : ([(1/2 : ℝ), 3/10, 0].any fun w => decide (w < 0)) = false := by
      norm_num
    rw [hany]
    have hsum : ¬(([(1/2 : ℝ), 3/10, 0].sum) ≤ 0) := by norm_num
    simp only [Bool.false_eq_true, if_false, if_neg hsum]
    have hw : weightedDraw (1/4 : ℝ) [1/2, 3/10, 0] = 0 := by
      norm_num [weightedDraw, weightedAux]
    rw [hw]
    have hg : ([(1/2 : ℝ), 3/10, 0]).getD 0 0 = 1/2 := by
      norm_num [List.getD]
    rw [hg]

/-! ## Claim C5 — top-k / top-p procedure -/

theorem getD_zero_nonneg (probs : List α) (hnn : ∀ x ∈ probs, 0 ≤ x) (i : ℕ) :
    0 ≤ probs.getD i 0 := by
  rw [List.getD_eq_getElem?_getD]
  cases h : probs[i]? with
  | none => simp
  | some v => simpa using hnn v (List.getElem?_mem h)

theorem massBefore_nonneg (probs : List α) (hnn : ∀ x ∈ probs, 0 ≤ x)
    (s : List ℕ) (n : ℕ) : 0 ≤ massBefore probs s n := by
  apply List.sum_nonneg
  intro x hx
  obtain ⟨i, _, rfl⟩ := List.mem_map.mp hx
  exact getD_zero_nonneg probs hnn i

theorem massBefore_zero (probs : List α) (s : List ℕ) : massBefore probs s 0 = 0 := by
  simp [massBefore]

theorem massBefore_cons_succ (probs : List α) (i : ℕ) (rest : List ℕ) (n : ℕ) :
    massBefore probs (i :: rest) (n + 1) = probs.getD i 0 + massBefore probs rest n := by
  simp [massBefore]

theorem zeroIndices_getD (probs : List α) (idxs : List ℕ) (j : ℕ) (hj : j < probs.length) :
    (zeroIndices probs idxs).getD j 0 = if j ∈ idxs then 0 else probs.getD j 0 := by
  rw [zeroIndices, mapIdxFrom_getD _ _ _ hj _ 0]

theorem toppClamp_getD_not_mem (p : α) (s : List ℕ) (c : α) (probs : List α) (j : ℕ)
    (hj : j ∉ s) : (toppClamp p s c probs).getD j 0 = probs.getD j 0 := by
  induction s generalizing c probs with
  | nil => rfl
  | cons i rest ih =>
    have hij : i ≠ j := fun h => hj (h ▸ List.mem_cons_self i rest)
    have hjr : j ∉ rest := fun h => hj (List.mem_cons_of_mem _ h)
    by_cases hc : p ≤ c
    · rw [show toppClamp p (i :: rest) c probs = toppClamp p rest c (probs.set i 0) from
        by rw [toppClamp, if_pos hc]]
      rw [ih _ _ hjr, List.getD_eq_getElem?_getD, List.getElem?_set_ne hij,
        ← List.getD_eq_getElem?_getD]
    · rw [show toppClamp p (i :: rest) c probs =
          toppClamp p rest (c + probs.getD i 0) probs from by rw [toppClamp, if_neg hc]]
      exact ih _ _ hjr

theorem set_zero_nonneg (probs : List α) (hnn : ∀ x ∈ probs, 0 ≤ x) (i : ℕ) :
    ∀ x ∈ probs.set i 0, 0 ≤ x := fun x hx =>
  (List.mem_or_eq_of_mem_set hx).elim (hnn x) (fun h => le_of_eq h.symm)

theorem set_zero_getD_self (probs : List α) (i : ℕ) : (probs.set i 0).getD i 0 = 0 := by
  rcases lt_or_ge i probs.length with hlt | hge
  · rw [List.getD_eq_getElem?_getD, List.getElem?_set_self hlt]
    simp
  · rw [List.set_eq_of_length_le hge, List.getD_eq_default _ _ hge]

/-- Characterisation of the top-p loop of `sample_topkp`: for nonnegative
weights, a distinct index list `s` and starting mass `c`, the weight at the
`n`-th index of `s` survives exactly when the mass accumulated before it
(starting from `c`) is still below `top_p`. -/
theorem toppClamp_getD_char (p : α) (probs : List α) (hnn : ∀ x ∈ probs, 0 ≤ x)
    (s : List ℕ) (hs : s.Nodup) (c : α) (n : ℕ) (hn : n < s.length) :
    (toppClamp p s c probs).getD (s.getD n 0) 0 =
      if c + massBefore probs s n < p then probs.getD (s.getD n 0) 0 else 0 := by
  induction s generalizing probs c n with
  | nil => exact absurd hn (by simp)
  | cons i rest ih =>
    obtain ⟨hir, hrest⟩ := List.nodup_cons.mp hs
    by_cases hc : p ≤ c
    · rw [show toppClamp p (i :: rest) c probs = toppClamp p rest c (probs.set i 0) from
        by rw [toppClamp, if_pos hc]]
      cases n with
      | zero =>
        rw [show ((i :: rest).getD 0 0) = i from rfl,
          toppClamp_getD_not_mem _ _ _ _ _ hir, set_zero_getD_self,
          if_neg (by rw [massBefore_zero]; simpa using not_lt.mpr hc)]
      | succ m =>
        have hm : m < rest.length := by simpa using hn
        rw [show ((i :: rest).getD (m + 1) 0) = rest.getD m 0 from rfl,
          ih (probs.set i 0) (set_zero_nonneg probs hnn i) hrest c m hm]
        have hmass1 : 0 ≤ massBefore (probs.set i 0) rest m :=
          massBefore_nonneg _ (set_zero_nonneg probs hnn i) _ _
        have hmass2 : 0 ≤ massBefore probs (i :: rest) (m + 1) :=
          massBefore_nonneg _ hnn _ _
        rw [if_neg (not_lt.mpr (le_trans hc (le_add_of_nonneg_right hmass1))),
          if_neg (not_lt.mpr (le_trans hc (le_add_of_nonneg_right hmass2)))]
    · rw [show toppClamp p (i :: rest) c probs =
          toppClamp p rest (c + probs.getD i 0) probs from by rw [toppClamp, if_neg hc]]
      cases n with
      | zero =>
        rw [show ((i :: rest).getD 0 0) = i from rfl,
          toppClamp_getD_not_mem _ _ _ _ _ hir,
          if_pos (by rw [massBefore_zero]; simpa using not_le.mp hc)]
      | succ m =>
        have hm : m < rest.length := by simpa using hn
        rw [show ((i :: rest).getD (m + 1) 0) = rest.getD m 0 from rfl,
          ih probs hnn hrest (c + probs.getD i 0) m hm,
          massBefore_cons_succ, ← add_assoc]

/-- C5: the top-k/top-p procedure of `sample_topkp`: the index list is a
permutation of all indices sorted by descending weight; when `top_k > 0` the
weights beyond sorted position `top_k` are zeroed and the rest kept; the
top-p walk keeps exactly the indices whose accumulated sorted mass is still
below `top_p` and zeroes every index after the first whose cumulative mass
reaches `top_p`; and when `top_p ≤ 0` or `top_p ≥ 1` the top-p step is
skipped entirely, the draw being taken on the top-k-clamped weights. -/
theorem topkp_procedure (log10 : α → α) (decode : ℕ → String) (u : α)
    (returnLogprobs : Bool) (topN : ℕ) (topK : ℤ) (topP : α) (probs : List α)
    (hnn : ∀ x ∈ probs, 0 ≤ x) :
    (argsortDesc probs).Perm (List.range probs.length)
    ∧ List.Sorted (fun i j => probs.getD j 0 ≤ probs.getD i 0) (argsortDesc probs)
    ∧ (0 < topK → ∀ j ∈ argsortDesc probs,
        (topkClamp topK (argsortDesc probs) probs).getD j 0 =
          if j ∈ (argsortDesc probs).take topK.toNat then probs.getD j 0 else 0)
    ∧ (∀ (s : List ℕ), s.Nodup → ∀ (c : α) (n : ℕ), n < s.length →
        (toppClamp topP s c probs).getD (s.getD n 0) 0 =
          if c + massBefore probs s n < topP then probs.getD (s.getD n 0) 0 else 0)
    ∧ (topP ≤ 0 ∨ 1 ≤ topP →
        sample_topkp log10 decode u returnLogprobs topN topK topP probs =
          sample_multinomial log10 decode u returnLogprobs topN
            (topkClamp topK (argsortDesc probs) probs) (argsortDesc probs)) := by
  haveI : IsTotal ℕ (fun i j => probs.getD j 0 ≤ probs.getD i 0) :=
    ⟨fun a b => le_total (probs.getD b 0) (probs.getD a 0)⟩
  haveI : IsTrans ℕ (fun i j => probs.getD j 0 ≤ probs.getD i 0) :=
    ⟨fun _ _ _ hab hbc => le_trans hbc hab⟩
  have hperm : (argsortDesc probs).Perm (List.range probs.length) :=
    List.perm_insertionSort _ _
  have hnd : (argsortDesc probs).Nodup :=
    hperm.symm.nodup (List.nodup_range probs.length)
  refine ⟨hperm, List.sorted_insertionSort _ _, ?_, ?_, ?_⟩
  · intro hk j hj
    have hjlt : j < probs.length :=
      List.mem_range.mp (hperm.mem_iff.mp hj)
    rw [show topkClamp topK (argsortDesc probs) probs =
        zeroIndices probs ((argsortDesc probs).drop topK.toNat) from
      by rw [topkClamp, if_pos hk]]
    rw [zeroIndices_getD _ _ _ hjlt]
    have hnd2 : ((argsortDesc probs).take topK.toNat ++
        (argsortDesc probs).drop topK.toNat).Nodup := by
      rw [List.take_append_drop]; exact hnd
    have hdisj := List.disjoint_of_nodup_append hnd2
    by_cases ht : j ∈ (argsortDesc probs).take topK.toNat
    · rw [if_neg (hdisj ht), if_pos ht]
    · have hd : j ∈ (argsortDesc probs).drop topK.toNat := by
        have := hj
        rw [← List.take_append_drop topK.toNat (argsortDesc probs)] at this
        exact (List.mem_append.mp this).resolve_left ht
      rw [if_pos hd, if_neg ht]
  · intro s hsnd c n hn
    exact toppClamp_getD_char topP probs hnn s hsnd c n hn
  · intro h
    rw [show sample_topkp log10 decode u returnLogprobs topN topK topP probs =
        if topP ≤ 0 ∨ 1 ≤ topP then
          sample_multinomial log10 decode u returnLogprobs topN
            (topkClamp topK (argsortDesc probs) probs) (argsortDesc probs)
        else
          sample_multinomial log10 decode u returnLogprobs topN
            (toppClamp topP (argsortDesc probs) 0
              (topkClamp topK (argsortDesc probs) probs)) (argsortDesc probs) from rfl]
    rw [if_pos h]

/-- Witness for C5 at the integer weight vector `[5, 3, 2]`, `top_k = 2`,
`top_p = 6`. -/
theorem topkp_procedure_witness :
    (argsortDesc [(5 : ℚ), 3, 2]).Perm (List.range ([(5 : ℚ), 3, 2].length))
    ∧ (topkClamp 2 (argsortDesc [(5 : ℚ), 3, 2]) [(5 : ℚ), 3, 2]).getD 0 0 =
        (if 0 ∈ (argsortDesc [(5 : ℚ), 3, 2]).take (2 : ℤ).toNat
          then ([(5 : ℚ), 3, 2]).getD 0 0 else 0)
    ∧ (toppClamp (6 : ℚ) [0, 1, 2] 0 [(5 : ℚ), 3, 2]).getD (([0, 1, 2] : List ℕ).getD 2 0) 0 =
        (if 0 + massBefore [(5 : ℚ), 3, 2] [0, 1, 2] 2 < 6
          then ([(5 : ℚ), 3, 2]).getD (([0, 1, 2] : List ℕ).getD 2 0) 0 else 0)
    ∧ sample_topkp (fun x : ℚ => x) (fun _ => "") 0 false 0 2 6 [(5 : ℚ), 3, 2] =
        sample_multinomial (fun x : ℚ => x) (fun _ => "") 0 false 0
          (topkClamp 2 (argsortDesc [(5 : ℚ), 3, 2]) [(5 : ℚ), 3, 2])
          (argsortDesc [(5 : ℚ), 3, 2]) :=
  have h := topkp_procedure (fun x : ℚ => x) (fun _ => "") 0 false 0 2 6 [(5 : ℚ), 3, 2]
    (by decide)
  ⟨h.1, h.2.2.1 (by decide) 0 (by decide),
   h.2.2.2.1 [0, 1, 2] (by decide) 0 2 (by decide), h.2.2.2.2 (Or.inr (by decide))⟩

/-! ## Claim C10 — EOS token-id resolution -/

theorem appendDecoded_ok_mem (decode : ℕ → Option String) (acc : List String)
    (ids : List ℕ) (out : List String) (h : appendDecoded decode acc ids = .ok out)
    (x : String) : x ∈ out ↔ x ∈ acc ∨ ∃ id ∈ ids, decode id = some x := by
  induction ids generalizing acc with
  | nil =>
    injection h with h
    subst h
    simp
  | cons id rest ih =>
    cases hd : decode id with
    | none =>
      simp only [appendDecoded, hd] at h
      exact Except.noConfusion h
    | some s =>
      simp only [appendDecoded, hd] at h
      rw [ih _ h]
      have hacc : x ∈ (if s ∈ acc then acc else acc ++ [s]) ↔ x ∈ acc ∨ x = s := by
        by_cases hs : s ∈ acc
        · rw [if_pos hs]
          exact ⟨Or.inl, fun hor => hor.elim (fun hy => hy) (fun he => he ▸ hs)⟩
        · rw [if_neg hs]
          simp [List.mem_append]
      rw [hacc]
      simp only [List.mem_cons]
      constructor
      · rintro ((hx | rfl) | ⟨i, hi, hdi⟩)
        · exact Or.inl hx
        · exact Or.inr ⟨id, Or.inl rfl, hd⟩
        · exact Or.inr ⟨i, Or.inr hi, hdi⟩
      · rintro (hx | ⟨i, (rfl | hi), hdi⟩)
        · exact Or.inl (Or.inl hx)
        · rw [hd] at hdi
          injection hdi with hdi
          exact Or.inl (Or.inr hdi.symm)
        · exact Or.inr ⟨i, hi, hdi⟩

theorem lookupEosIds_ok_mem (vocab : List (String × ℕ)) (ss : List String)
    (l : List ℕ) (h : lookupEosIds vocab ss = .ok l) (i : ℕ) :
    i ∈ l ↔ ∃ s ∈ ss, vocabGet vocab s = some i := by
  induction ss generalizing l with
  | nil =>
    injection h with h
    subst h
    simp
  | cons s rest ih =>
    cases hv : vocabGet vocab s with
    | none =>
      simp only [lookupEosIds, hv] at h
      exact Except.noConfusion h
    | some id =>
      simp only [lookupEosIds, hv] at h
      cases hr : lookupEosIds vocab rest with
      | error e => rw [hr] at h; exact Except.noConfusion h
      | ok ids =>
        rw [hr] at h
        injection h with h
        subst h
        simp only [List.mem_cons, ih ids hr]
        constructor
        · rintro (rfl | ⟨t, ht, hvt⟩)
          · exact ⟨s, Or.inl rfl, hv⟩
          · exact ⟨t, Or.inr ht, hvt⟩
        · rintro ⟨t, (rfl | ht), hvt⟩
          · rw [hv] at hvt
            injection hvt with hvt
            exact Or.inl hvt.symm
          · exact Or.inr ⟨t, ht, hvt⟩

theorem lookupEosIds_mem_error (vocab : List (String × ℕ)) (ss : List String)
    (s : String) (hs : s ∈ ss) (hv : vocabGet vocab s = none) :
    ∀ l, lookupEosIds vocab ss ≠ .ok l := by
  induction ss with
  | nil => cases hs
  | cons t rest ih =>
    intro l h
    rcases List.mem_cons.mp hs with rfl | hmem
    · simp only [lookupEosIds, hv] at h
      exact Except.noConfusion h
    · cases hv2 : vocabGet vocab t with
      | none =>
        simp only [lookupEosIds, hv2] at h
        exact Except.noConfusion h
      | some id =>
        simp only [lookupEosIds, hv2] at h
        cases hr : lookupEosIds vocab rest with
        | error e => rw [hr] at h; exact Except.noConfusion h
        | ok ids => exact ih hmem ids hr

/-- C10: when `calculate_eos_tokens` succeeds, the returned token-id set is
exactly the vocabulary lookup of the union of (a) the template-declared eos
token, (b) each allow-listed alternate end marker present in the
vocabulary, and (c) each generation-config eos token id decoded through the
tokenizer; and when any resolved string is missing from the vocabulary the
function fails instead of silently skipping it. -/
theorem calculate_eos_tokens_union (ct : ChatTemplateM) (gc : GenerationConfigM)
    (tok : TokenizerM) :
    (∀ l, calculate_eos_tokens ct (some gc) tok = .ok l →
      ∀ i, i ∈ l ↔ ∃ s ∈ eosResolvedStrings ct gc tok, vocabGet tok.vocab s = some i)
    ∧ ((∃ s ∈ eosResolvedStrings ct gc tok, vocabGet tok.vocab s = none) →
        ∀ l, calculate_eos_tokens ct (some gc) tok ≠ .ok l) := by
  have hmain : ∀ l, calculate_eos_tokens ct (some gc) tok = .ok l →
      ∃ eos1, appendDecoded tok.decode
          ((match ct.eosToken with | some s => [s] | none => []) ++
            SUPPORTED_ALTERNATE_EOS.filter (fun a => (vocabGet tok.vocab a).isSome))
          gc.eosTokenId = .ok eos1
        ∧ lookupEosIds tok.vocab eos1 = .ok l := by
    intro l h
    cases he : appendDecoded tok.decode
        ((match ct.eosToken with | some s => [s] | none => []) ++
          SUPPORTED_ALTERNATE_EOS.filter (fun a => (vocabGet tok.vocab a).isSome))
        gc.eosTokenId with
    | error e =>
      simp only [calculate_eos_tokens, he] at h
      exact Except.noConfusion h
    | ok eos1 =>
      cases hb : appendDecoded tok.decode
          (match ct.bosToken with | some s => [s] | none => []) gc.bosTokenId with
      | error e =>
        simp only [calculate_eos_tokens, he, hb] at h
        exact Except.noConfusion h
      | ok res =>
        simp only [calculate_eos_tokens, he, hb] at h
        exact ⟨eos1, rfl, h⟩
  have hbridge : ∀ eos1, appendDecoded tok.decode
      ((match ct.eosToken with | some s => [s] | none => []) ++
        SUPPORTED_ALTERNATE_EOS.filter (fun a => (vocabGet tok.vocab a).isSome))
      gc.eosTokenId = .ok eos1 →
      ∀ s, s ∈ eos1 ↔ s ∈ eosResolvedStrings ct gc tok := by
    intro eos1 he s
    rw [appendDecoded_ok_mem _ _ _ _ he s]
    simp only [eosResolvedStrings, List.mem_append, List.mem_filterMap]
  constructor
  · intro l h i
    obtain ⟨eos1, he, hl⟩ := hmain l h
    rw [lookupEosIds_ok_mem _ _ _ hl i]
    exact exists_congr (fun s => and_congr_left (fun _ => hbridge eos1 he s))
  · rintro ⟨s, hsmem, hsnone⟩ l hok
    obtain ⟨eos1, he, hl⟩ := hmain l hok
    exact lookupEosIds_mem_error _ _ _ ((hbridge eos1 he s).mpr hsmem) hsnone l hl

/-- Witness for C10 at a concrete template, generation config and
tokenizer. -/
theorem calculate_eos_tokens_union_witness :
    (2 : ℕ) ∈ ([1, 2, 3] : List ℕ) ↔
      ∃ s ∈ eosResolvedStrings ⟨some "</s>", none⟩ ⟨[], [3]⟩
          ⟨[("</s>", 1), ("<|im_end|>", 2), ("X", 3)],
            fun id => if id = 3 then some "X" else none⟩,
        vocabGet [("</s>", 1), ("<|im_end|>", 2), ("X", 3)] s = some 2 :=
  (calculate_eos_tokens_union ⟨some "</s>", none⟩ ⟨[], [3]⟩
      ⟨[("</s>", 1), ("<|im_end|>", 2), ("X", 3)],
        fun id => if id = 3 then some "X" else none⟩).1
    [1, 2, 3] (by decide) 2

end MistralRs
